import Mathlib

/-! Verification of the LanceBot bidding core (`src/bidding.py`).

Shallow embedding of the bidding-decision engine: the two concrete bidding
strategies (`MinimalDecreaseStrategy`, `TimedStrategy`) and the coordinator
(`BiddingManager`).  Python floats are modelled as exact rationals (`ℚ`);
`round(x, 2)` is modelled as round-half-to-even at two decimal places.
Wall-clock data (`start_time`, the `timestamp` stored in each history entry)
and log-message text are not modelled; log events are kept as their levels
only.  `random.randint(0, max_random_delay)` is modelled by an explicit
delay oracle (`delays : ℕ → ℤ`, one sample per loop iteration) supplied by
the caller.  Python's dict is modelled as an insertion-ordered association
list, with dict assignment replacing the first matching binding in place.
-/

namespace LanceBot

/-- Floor of a rational, computably (`⌊x⌋` does not reduce). -/
def qfloor (x : ℚ) : ℤ := x.num / x.den

/-- Round a rational to the nearest integer, halves to even
(the behaviour of Python's `round`). -/
def pyRoundInt (x : ℚ) : ℤ :=
  if x - qfloor x < 1/2 then qfloor x
  else if 1/2 < x - qfloor x then qfloor x + 1
  else if 2 ∣ qfloor x then qfloor x else qfloor x + 1

/-- Python's `round(x, 2)`. -/
def round2 (x : ℚ) : ℚ := (pyRoundInt (x * 100) : ℚ) / 100

/-- Configuration of `MinimalDecreaseStrategy` (`src/bidding.py:58-80`).
The logger field carries no decision-relevant state and is omitted. -/
structure MinimalDecreaseStrategy where
  min_decrease_value : ℚ
  min_decrease_percent : ℚ
deriving DecidableEq

/-- `MinimalDecreaseStrategy.calculate_bid` (`src/bidding.py:82-105`). -/
def MinimalDecreaseStrategy.calculate_bid (s : MinimalDecreaseStrategy)
    (current_price : ℚ) : ℚ :=
  let percent_decrease := current_price * (s.min_decrease_percent / 100)
  let new_bid :=
    if percent_decrease > s.min_decrease_value ∧ s.min_decrease_percent > 0 then
      current_price - percent_decrease
    else
      current_price - s.min_decrease_value
  round2 new_bid

/-- `MinimalDecreaseStrategy.should_bid` (`src/bidding.py:107-134`).
`none` models Python's `None` for the optional arguments. -/
def MinimalDecreaseStrategy.should_bid (_s : MinimalDecreaseStrategy)
    (current_price : ℚ) (my_last_bid : Option ℚ) (min_price : Option ℚ) : Bool :=
  if my_last_bid.any fun b => decide (b ≤ current_price) then false
  else if min_price.any fun m => decide (current_price ≤ m) then false
  else true

/-- Configuration and trigger-cursor state of `TimedStrategy`
(`src/bidding.py:137-163`).  `last_bid_time_index` starts at `-1`. -/
structure TimedStrategy where
  bid_times : List ℤ
  random_delay : Bool
  max_random_delay : ℤ
  last_bid_time_index : ℤ
deriving DecidableEq

/-- The effective threshold for loop index `i`: the configured bid time plus
the sampled jitter when `random_delay` is set (`src/bidding.py:239-244`). -/
def adjustedBidTime (s : TimedStrategy) (delays : ℕ → ℤ) (i : ℕ) (bid_time : ℤ) : ℤ :=
  if s.random_delay then bid_time + delays i else bid_time

/-- The `for i, bid_time in enumerate(self.bid_times)` scan of
`TimedStrategy.should_bid` (`src/bidding.py:237-252`): returns the loop index
of the first threshold that fires, counting from `i`. -/
def scanFire (s : TimedStrategy) (delays : ℕ → ℤ) (seconds_remaining : ℤ) :
    ℕ → List ℤ → Option ℕ
  | _, [] => none
  | i, bid_time :: rest =>
    if seconds_remaining ≤ adjustedBidTime s delays i bid_time ∧
        s.last_bid_time_index < (i : ℤ) then
      some i
    else scanFire s delays seconds_remaining (i + 1) rest

/-- `TimedStrategy.should_bid` (`src/bidding.py:209-252`).  The in-place
mutation of `self.last_bid_time_index` is returned as the second component.
The baseline check constructs a default `MinimalDecreaseStrategy()`
(`min_decrease_value=0.01`, `min_decrease_percent=0.0`). -/
def TimedStrategy.should_bid (s : TimedStrategy) (delays : ℕ → ℤ)
    (seconds_remaining : ℤ) (current_price : ℚ)
    (my_last_bid : Option ℚ) (min_price : Option ℚ) : Bool × TimedStrategy :=
  if MinimalDecreaseStrategy.should_bid ⟨1/100, 0⟩ current_price my_last_bid min_price
      = false then
    (false, s)
  else
    match scanFire s delays seconds_remaining 0 s.bid_times with
    | some i => (true, { s with last_bid_time_index := (i : ℤ) })
    | none => (false, s)

/-- `TimedStrategy.calculate_bid` (`src/bidding.py:165-207`). -/
def TimedStrategy.calculate_bid (s : TimedStrategy) (current_price : ℚ)
    (min_decrease_value : ℚ) (min_decrease_percent : ℚ)
    (aggressive_final_bid : Bool) : ℚ :=
  if aggressive_final_bid = true ∧
      (s.bid_times.length : ℤ) - 2 ≤ s.last_bid_time_index then
    let percent_decrease := current_price * (min_decrease_percent * 2 / 100)
    let value_decrease := min_decrease_value * 2
    round2 (if percent_decrease > value_decrease ∧ min_decrease_percent > 0 then
        current_price - percent_decrease
      else
        current_price - value_decrease)
  else
    MinimalDecreaseStrategy.calculate_bid ⟨min_decrease_value, min_decrease_percent⟩
      current_price

/-- The strategy bound to a registered auction: one of the two concrete
policies of `src/bidding.py`. -/
inductive Strategy where
  | minimal (s : MinimalDecreaseStrategy)
  | timed (s : TimedStrategy)
deriving DecidableEq

/-- One entry of `bid_history` (`src/bidding.py:354-358`); the wall-clock
`timestamp` field is not modelled.  `price_at_decision` is stored under the
key `current_price` in the Python dict. -/
structure BidRecord where
  value : ℚ
  price_at_decision : ℚ
deriving DecidableEq

/-- The per-auction record created by `register_auction`
(`src/bidding.py:289-298`); `start_time` (wall clock) is not modelled. -/
structure Auction where
  strategy : Strategy
  min_price : Option ℚ
  max_bids : Option ℕ
  bids_count : ℕ
  last_bid : Option ℚ
  item_description : Option String
  bid_history : List BidRecord
deriving DecidableEq

/-- Log-event levels; message text is not modelled. -/
inductive LogLevel where
  | info
  | warning
deriving DecidableEq

/-- `BiddingManager` state (`src/bidding.py:255-271`): the dict of active
auctions, as an insertion-ordered association list. -/
structure BiddingManager where
  active_auctions : List (String × Auction)
deriving DecidableEq

/-- Dict lookup: first binding of the key. -/
def lookupAuction : List (String × Auction) → String → Option Auction
  | [], _ => none
  | (k, a) :: rest, auction_id =>
    if k = auction_id then some a else lookupAuction rest auction_id

/-- Dict assignment `d[key] = value`: replaces the first binding in place,
or appends a new binding at the end. -/
def setAuction : List (String × Auction) → String → Auction →
    List (String × Auction)
  | [], auction_id, a => [(auction_id, a)]
  | (k, v) :: rest, auction_id, a =>
    if k = auction_id then (auction_id, a) :: rest
    else (k, v) :: setAuction rest auction_id a

/-- Dict deletion `del d[key]`: removes the first binding of the key. -/
def delAuction : List (String × Auction) → String → List (String × Auction)
  | [], _ => []
  | (k, v) :: rest, auction_id =>
    if k = auction_id then rest else (k, v) :: delAuction rest auction_id

/-- `BiddingManager.register_auction` (`src/bidding.py:273-300`): plain dict
assignment — an existing record under the same id is silently replaced. -/
def BiddingManager.register_auction (m : BiddingManager) (auction_id : String)
    (strategy : Strategy) (min_price : Option ℚ) (max_bids : Option ℕ)
    (item_description : Option String) : BiddingManager :=
  ⟨setAuction m.active_auctions auction_id
    { strategy := strategy, min_price := min_price, max_bids := max_bids,
      bids_count := 0, last_bid := none, item_description := item_description,
      bid_history := [] }⟩

/-- The exception a `process_bid` call can raise: calling
`TimedStrategy.should_bid` without its mandatory `seconds_remaining`
argument is a Python `TypeError`. -/
inductive PyError where
  | typeError
deriving DecidableEq

/-- `BiddingManager.process_bid` (`src/bidding.py:302-361`).  Returns the
bid value (or `none`), the updated manager and the manager-level log events
(strategy-internal info events are not modelled).  The coordinator puts
`seconds_remaining` into the forwarded parameters only when it is not
`None` (`src/bidding.py:337-339`); a `TimedStrategy`-bound auction without
it raises `TypeError` at the `should_bid` call. -/
def BiddingManager.process_bid (m : BiddingManager) (delays : ℕ → ℤ)
    (auction_id : String) (current_price : ℚ) (seconds_remaining : Option ℤ) :
    Except PyError (Option ℚ × BiddingManager × List LogLevel) :=
  match lookupAuction m.active_auctions auction_id with
  | none => Except.ok (none, m, [LogLevel.warning])
  | some auction =>
    if auction.max_bids.any fun mb => decide (mb ≤ auction.bids_count) then
      Except.ok (none, m, [LogLevel.info])
    else
      match auction.strategy with
      | Strategy.minimal s =>
        if s.should_bid current_price auction.last_bid auction.min_price = false then
          Except.ok (none, m, [])
        else
          let bid_value := s.calculate_bid current_price
          Except.ok (some bid_value,
            ⟨setAuction m.active_auctions auction_id
              { auction with
                last_bid := some bid_value,
                bids_count := auction.bids_count + 1,
                bid_history := auction.bid_history ++ [⟨bid_value, current_price⟩] }⟩,
            [LogLevel.info])
      | Strategy.timed s =>
        match seconds_remaining with
        | none => Except.error PyError.typeError
        | some secs =>
          let r := s.should_bid delays secs current_price auction.last_bid
            auction.min_price
          if r.1 = false then
            Except.ok (none,
              ⟨setAuction m.active_auctions auction_id
                { auction with strategy := Strategy.timed r.2 }⟩, [])
          else
            let bid_value := r.2.calculate_bid current_price (1/100) 0 false
            Except.ok (some bid_value,
              ⟨setAuction m.active_auctions auction_id
                { auction with
                  strategy := Strategy.timed r.2,
                  last_bid := some bid_value,
                  bids_count := auction.bids_count + 1,
                  bid_history := auction.bid_history ++ [⟨bid_value, current_price⟩] }⟩,
              [LogLevel.info])

/-- `BiddingManager.remove_auction` (`src/bidding.py:379-395`). -/
def BiddingManager.remove_auction (m : BiddingManager) (auction_id : String) :
    Bool × BiddingManager :=
  match lookupAuction m.active_auctions auction_id with
  | some _ => (true, ⟨delAuction m.active_auctions auction_id⟩)
  | none => (false, m)

/-- One external call into the coordinator. -/
inductive ManagerCall where
  | register (auction_id : String) (strategy : Strategy) (min_price : Option ℚ)
      (max_bids : Option ℕ) (item_description : Option String)
  | process (delays : ℕ → ℤ) (auction_id : String) (current_price : ℚ)
      (seconds_remaining : Option ℤ)
  | remove (auction_id : String)

/-- Apply one call to the manager state.  A raised `TypeError` leaves the
state unchanged (in `process_bid` nothing is mutated before the
`should_bid` call that raises). -/
def stepCall (m : BiddingManager) : ManagerCall → BiddingManager
  | ManagerCall.register aid s mp mb d => m.register_auction aid s mp mb d
  | ManagerCall.process delays aid p secs =>
    match m.process_bid delays aid p secs with
    | Except.ok (_, m2, _) => m2
    | Except.error _ => m
  | ManagerCall.remove aid => (m.remove_auction aid).2

/-- Run a sequence of calls from a starting state. -/
def runCalls (m : BiddingManager) : List ManagerCall → BiddingManager
  | [] => m
  | c :: cs => runCalls (stepCall m c) cs

/-- The manager with no registered auctions. -/
def emptyManager : BiddingManager := ⟨[]⟩

/-- The per-record invariant of the data model: the cap is respected,
`bids_count` counts the history, and `last_bid` mirrors the newest entry. -/
def auctionInv (a : Auction) : Prop :=
  (∀ mb, a.max_bids = some mb → a.bids_count ≤ mb) ∧
  a.bids_count = a.bid_history.length ∧
  a.last_bid = a.bid_history.getLast?.map BidRecord.value

/-- Every registered record satisfies the data-model invariant. -/
def managerInv (m : BiddingManager) : Prop :=
  ∀ e ∈ m.active_auctions, auctionInv e.2

/-- One `should_bid` call to a `TimedStrategy`, with its jitter oracle. -/
structure TimedCall where
  delays : ℕ → ℤ
  seconds_remaining : ℤ
  current_price : ℚ
  my_last_bid : Option ℚ
  min_price : Option ℚ

/-- Run a sequence of `should_bid` calls against a `TimedStrategy`,
recording for each call the threshold index it fired (or `none`). -/
def runTimed (s : TimedStrategy) : List TimedCall → TimedStrategy × List (Option ℤ)
  | [] => (s, [])
  | c :: cs =>
    let r := s.should_bid c.delays c.seconds_remaining c.current_price
      c.my_last_bid c.min_price
    let rest := runTimed r.2 cs
    (rest.1, (if r.1 then some r.2.last_bid_time_index else none) :: rest.2)

/-- Feed `process_bid` a sequence of `seconds_remaining` values at a fixed
price, collecting each call's returned bid.  Stops if a call raises. -/
def processSeq (m : BiddingManager) (auction_id : String) (current_price : ℚ) :
    List ℤ → List (Option ℚ) × BiddingManager
  | [] => ([], m)
  | secs :: rest =>
    match m.process_bid (fun _ => 0) auction_id current_price (some secs) with
    | Except.ok (v, m2, _) =>
      let r := processSeq m2 auction_id current_price rest
      (v :: r.1, r.2)
    | Except.error _ => ([], m)

/-- Scenario C setup: `TimedPolicy(bid_times=[60,30,10,3])`, no jitter,
floor 90, registered as auction `"C"`. -/
def scenarioCManager : BiddingManager :=
  emptyManager.register_auction "C"
    (Strategy.timed ⟨[60, 30, 10, 3], false, 5, -1⟩) (some 90) none none

/-- Scenario C run: `seconds_remaining` = [120,60,40,30,15,10,5,3,1]
at a constant price of 100. -/
def scenarioCRun : List (Option ℚ) × BiddingManager :=
  processSeq scenarioCManager "C" 100 [120, 60, 40, 30, 15, 10, 5, 3, 1]

end LanceBot

namespace LanceBot

/-! Section: Concrete states used by witnesses and counterexamples -/

/-- A fresh `MinimalDecreaseStrategy`-bound auction `"A"` with floor 90. -/
def mA : BiddingManager :=
  emptyManager.register_auction "A" (Strategy.minimal ⟨1/100, 0⟩) (some 90) none none

/-- The record of `"A"` right after registration. -/
def auctionA0 : Auction :=
  ⟨Strategy.minimal ⟨1/100, 0⟩, some 90, none, 0, none, none, []⟩

/-- The record of `"A"` after one accepted bid at price 100. -/
def auctionA1 : Auction :=
  ⟨Strategy.minimal ⟨1/100, 0⟩, some 90, none, 1, some (9999/100), none,
    [⟨9999/100, 100⟩]⟩

/-- The manager after that accepted bid. -/
def mA1 : BiddingManager := ⟨[("A", auctionA1)]⟩

/-- Re-registering `"A"` on top of `mA1`. -/
def mA2 : BiddingManager :=
  mA1.register_auction "A" (Strategy.minimal ⟨1/100, 0⟩) (some 90) none none

/-- Auction `"F"`: floor 99.99, one-cent decrement — the accepted bid at
price 100 lands exactly on the floor. -/
def mF : BiddingManager :=
  emptyManager.register_auction "F" (Strategy.minimal ⟨1/100, 0⟩)
    (some (9999/100)) none none

/-- `mF` after `process_bid` at price 100. -/
def mF1 : BiddingManager := stepCall mF (ManagerCall.process (fun _ => 0) "F" 100 none)

/-- A capped auction record that has used its single allowed bid. -/
def auctionD1 : Auction :=
  ⟨Strategy.minimal ⟨1/100, 0⟩, some 90, some 1, 1, some (9999/100), none,
    [⟨9999/100, 100⟩]⟩

/-- Manager holding the exhausted auction `"D"`. -/
def mD1 : BiddingManager := ⟨[("D", auctionD1)]⟩

/-- The Scenario C timed strategy, freshly constructed. -/
def timedS0 : TimedStrategy := ⟨[60, 30, 10, 3], false, 5, -1⟩

/-- A registered `TimedStrategy`-bound auction `"T"`. -/
def auctionT : Auction := ⟨Strategy.timed timedS0, some 90, none, 0, none, none, []⟩

/-- Manager holding auction `"T"`. -/
def mT : BiddingManager := ⟨[("T", auctionT)]⟩

/-! Section: Arithmetic facts about rounding -/

theorem qfloor_eq (x : ℚ) : qfloor x = ⌊x⌋ := Rat.floor_def.symm

theorem qfloor_le (x : ℚ) : ((qfloor x : ℤ) : ℚ) ≤ x := by
  rw [qfloor_eq]; exact Int.floor_le x

theorem lt_qfloor_add_one (x : ℚ) : x < ((qfloor x : ℤ) : ℚ) + 1 := by
  rw [qfloor_eq]; exact Int.lt_floor_add_one x

theorem pyRoundInt_le (x : ℚ) : (pyRoundInt x : ℚ) ≤ x + 1/2 := by
  have hf := qfloor_le x
  have hc := lt_qfloor_add_one x
  unfold pyRoundInt
  split_ifs with h1 h2 h3
  · linarith
  · push_cast; linarith
  · push_cast at h1 h2 ⊢; linarith
  · push_cast at h1 h2 ⊢; linarith

theorem round2_le (x : ℚ) : round2 x ≤ x + 1/200 := by
  have h := pyRoundInt_le (x * 100)
  unfold round2
  linarith

theorem round2_sub_lt {p d : ℚ} (hd : 1/100 ≤ d) : round2 (p - d) < p := by
  have h := round2_le (p - d)
  linarith

/-- If the configured fixed decrement is at least one cent, the computed bid
is strictly below the current price even after rounding. -/
theorem calculate_bid_lt (s : MinimalDecreaseStrategy) (p : ℚ)
    (h : 1/100 ≤ s.min_decrease_value) : s.calculate_bid p < p := by
  unfold MinimalDecreaseStrategy.calculate_bid
  dsimp only
  split_ifs with hc
  · exact round2_sub_lt (le_of_lt (lt_of_le_of_lt h hc.1))
  · exact round2_sub_lt h

end LanceBot

namespace LanceBot

/-! Section: Dictionary lemmas -/

theorem lookupAuction_setAuction (l : List (String × Auction)) (aid : String)
    (a : Auction) (aid' : String) :
    lookupAuction (setAuction l aid a) aid' =
      if aid' = aid then some a else lookupAuction l aid' := by
  induction l with
  | nil =>
    by_cases h : aid = aid'
    · subst h; simp [setAuction, lookupAuction]
    · simp [setAuction, lookupAuction, h, Ne.symm h]
  | cons kv rest ih =>
    obtain ⟨k, v⟩ := kv
    by_cases hk : k = aid
    · subst hk
      by_cases h : k = aid'
      · subst h; simp [setAuction, lookupAuction]
      · simp [setAuction, lookupAuction, h, Ne.symm h]
    · by_cases h : k = aid'
      · have haid : ¬ aid' = aid := fun he => hk (h.trans he)
        simp [setAuction, lookupAuction, hk, h, haid]
      · simp [setAuction, lookupAuction, hk, h, ih]

theorem setAuction_self {l : List (String × Auction)} {aid : String} {a : Auction}
    (h : lookupAuction l aid = some a) : setAuction l aid a = l := by
  induction l with
  | nil => simp [lookupAuction] at h
  | cons kv rest ih =>
    obtain ⟨k, v⟩ := kv
    by_cases hk : k = aid
    · subst hk
      simp [lookupAuction] at h
      simp [setAuction, h]
    · simp [lookupAuction, hk] at h
      simp [setAuction, hk, ih h]

theorem mem_setAuction {l : List (String × Auction)} {aid : String} {a : Auction}
    {e : String × Auction} (he : e ∈ setAuction l aid a) : e = (aid, a) ∨ e ∈ l := by
  induction l with
  | nil => simp [setAuction] at he; simp [he]
  | cons kv rest ih =>
    obtain ⟨k, v⟩ := kv
    by_cases hk : k = aid
    · subst hk
      simp [setAuction] at he
      rcases he with he | he
      · exact Or.inl he
      · exact Or.inr (List.mem_cons_of_mem _ he)
    · simp [setAuction, hk] at he
      rcases he with he | he
      · exact Or.inr (by simp [he])
      · rcases ih he with h1 | h1
        · exact Or.inl h1
        · exact Or.inr (List.mem_cons_of_mem _ h1)

theorem mem_delAuction {l : List (String × Auction)} {aid : String}
    {e : String × Auction} (he : e ∈ delAuction l aid) : e ∈ l := by
  induction l with
  | nil => simp [delAuction] at he
  | cons kv rest ih =>
    obtain ⟨k, v⟩ := kv
    by_cases hk : k = aid
    · subst hk
      simp [delAuction] at he
      exact List.mem_cons_of_mem _ he
    · simp [delAuction, hk] at he
      rcases he with he | he
      · simp [he]
      · exact List.mem_cons_of_mem _ (ih he)

theorem lookupAuction_mem {l : List (String × Auction)} {aid : String} {a : Auction}
    (h : lookupAuction l aid = some a) : (aid, a) ∈ l := by
  induction l with
  | nil => simp [lookupAuction] at h
  | cons kv rest ih =>
    obtain ⟨k, v⟩ := kv
    by_cases hk : k = aid
    · subst hk
      simp [lookupAuction] at h
      simp [h]
    · simp [lookupAuction, hk] at h
      exact List.mem_cons_of_mem _ (ih h)

end LanceBot

namespace LanceBot

/-! Section: Baseline eligibility lemmas -/

theorem should_bid_false_of_led (s : MinimalDecreaseStrategy) (p b : ℚ)
    (mp : Option ℚ) (h : b ≤ p) :
    s.should_bid p (some b) mp = false := by
  simp [MinimalDecreaseStrategy.should_bid, h]

theorem should_bid_false_of_floor (s : MinimalDecreaseStrategy) (p : ℚ)
    (lb : Option ℚ) (fp : ℚ) (h : p ≤ fp) :
    s.should_bid p lb (some fp) = false := by
  cases lb with
  | none => simp [MinimalDecreaseStrategy.should_bid, h]
  | some b =>
    by_cases hb : b ≤ p <;>
      simp [MinimalDecreaseStrategy.should_bid, h, hb]

theorem should_bid_eq_true_iff (s : MinimalDecreaseStrategy) (p : ℚ)
    (lb mp : Option ℚ) :
    s.should_bid p lb mp = true ↔
      (∀ b, lb = some b → p < b) ∧ (∀ fp, mp = some fp → fp < p) := by
  cases lb with
  | none =>
    cases mp with
    | none => simp [MinimalDecreaseStrategy.should_bid]
    | some fp => simp [MinimalDecreaseStrategy.should_bid, not_le]
  | some b =>
    cases mp with
    | none => simp [MinimalDecreaseStrategy.should_bid, not_le]
    | some fp =>
      by_cases hb : b ≤ p
      · simp [MinimalDecreaseStrategy.should_bid, hb, not_lt.mpr hb]
      · simp [MinimalDecreaseStrategy.should_bid, hb, not_le]
        exact fun _ => not_le.mp hb

end LanceBot

namespace LanceBot

/-! Section: TimedStrategy scan lemmas -/

theorem scanFire_eq_some {s : TimedStrategy} {delays : ℕ → ℤ} {secs : ℤ}
    {l : List ℤ} : ∀ {k i : ℕ}, scanFire s delays secs k l = some i →
    k ≤ i ∧ ∃ t, l.get? (i - k) = some t ∧
      secs ≤ adjustedBidTime s delays i t ∧ s.last_bid_time_index < (i : ℤ) ∧
      ∀ j tj, k ≤ j → j < i → l.get? (j - k) = some tj →
        ¬(secs ≤ adjustedBidTime s delays j tj ∧ s.last_bid_time_index < (j : ℤ)) := by
  induction l with
  | nil => intro k i h; simp [scanFire] at h
  | cons t rest ih =>
    intro k i h
    rw [scanFire] at h
    split_ifs at h with hc
    · have hki : k = i := by simpa using h
      subst hki
      refine ⟨le_refl _, t, by simp, hc.1, hc.2, ?_⟩
      intro j tj hkj hji
      omega
    · obtain ⟨hki, t', hget, h1, h2, hmin⟩ := ih h
      refine ⟨by omega, t', ?_, h1, h2, ?_⟩
      · have he : i - k = (i - (k + 1)) + 1 := by omega
        rw [he, List.get?_cons_succ]
        exact hget
      · intro j tj hkj hji hget'
        rcases Nat.eq_or_lt_of_le hkj with heq | hlt
        · subst heq
          have ht : t = tj := by simpa using hget'
          subst ht
          exact hc
        · have he : j - k = (j - (k + 1)) + 1 := by omega
          rw [he, List.get?_cons_succ] at hget'
          exact hmin j tj (by omega) hji hget'

theorem scanFire_eq_none {s : TimedStrategy} {delays : ℕ → ℤ} {secs : ℤ}
    {l : List ℤ} : ∀ {k : ℕ}, scanFire s delays secs k l = none →
    ∀ j tj, k ≤ j → l.get? (j - k) = some tj →
      ¬(secs ≤ adjustedBidTime s delays j tj ∧ s.last_bid_time_index < (j : ℤ)) := by
  induction l with
  | nil => intro k _ j tj _ hget; simp at hget
  | cons t rest ih =>
    intro k h j tj hkj hget
    rw [scanFire] at h
    split_ifs at h with hc
    rcases Nat.eq_or_lt_of_le hkj with heq | hlt
    · subst heq
      have ht : t = tj := by simpa using hget
      subst ht
      exact hc
    · have he : j - k = (j - (k + 1)) + 1 := by omega
      rw [he, List.get?_cons_succ] at hget
      exact ih h j tj (by omega) hget

/-- Case analysis of `TimedStrategy.should_bid`: either it declines and
leaves the cursor untouched, or the scan fired index `i` and the cursor
advances to `i` (with the baseline necessarily satisfied). -/
theorem timed_should_bid_cases (s : TimedStrategy) (delays : ℕ → ℤ) (secs : ℤ)
    (p : ℚ) (lb mp : Option ℚ) :
    s.should_bid delays secs p lb mp = (false, s) ∨
    ∃ i : ℕ, scanFire s delays secs 0 s.bid_times = some i ∧
      MinimalDecreaseStrategy.should_bid ⟨1/100, 0⟩ p lb mp = true ∧
      s.should_bid delays secs p lb mp =
        (true, { s with last_bid_time_index := (i : ℤ) }) := by
  unfold TimedStrategy.should_bid
  split_ifs with h
  · exact Or.inl rfl
  · cases hscan : scanFire s delays secs 0 s.bid_times with
    | none => exact Or.inl rfl
    | some i =>
      right
      exact ⟨i, rfl, by simpa using h, rfl⟩

theorem timed_should_bid_false_snd (s : TimedStrategy) (delays : ℕ → ℤ)
    (secs : ℤ) (p : ℚ) (lb mp : Option ℚ)
    (h : (s.should_bid delays secs p lb mp).1 = false) :
    (s.should_bid delays secs p lb mp).2 = s := by
  rcases timed_should_bid_cases s delays secs p lb mp with hc | ⟨i, _, _, hc⟩
  · rw [hc]
  · rw [hc] at h; simp at h

theorem timed_should_bid_of_baseline_false (s : TimedStrategy) (delays : ℕ → ℤ)
    (secs : ℤ) (p : ℚ) (lb mp : Option ℚ)
    (h : MinimalDecreaseStrategy.should_bid ⟨1/100, 0⟩ p lb mp = false) :
    s.should_bid delays secs p lb mp = (false, s) := by
  unfold TimedStrategy.should_bid
  rw [h]
  simp

theorem timed_should_bid_mono (s : TimedStrategy) (delays : ℕ → ℤ) (secs : ℤ)
    (p : ℚ) (lb mp : Option ℚ) :
    s.last_bid_time_index ≤ (s.should_bid delays secs p lb mp).2.last_bid_time_index := by
  rcases timed_should_bid_cases s delays secs p lb mp with hc | ⟨i, hscan, _, hc⟩
  · rw [hc]
  · rw [hc]
    have := (scanFire_eq_some hscan).2
    obtain ⟨t, _, _, hlt, _⟩ := this
    exact le_of_lt hlt

theorem timed_should_bid_true_lt (s : TimedStrategy) (delays : ℕ → ℤ) (secs : ℤ)
    (p : ℚ) (lb mp : Option ℚ)
    (h : (s.should_bid delays secs p lb mp).1 = true) :
    s.last_bid_time_index < (s.should_bid delays secs p lb mp).2.last_bid_time_index := by
  rcases timed_should_bid_cases s delays secs p lb mp with hc | ⟨i, hscan, _, hc⟩
  · rw [hc] at h; simp at h
  · rw [hc]
    obtain ⟨t, _, _, hlt, _⟩ := (scanFire_eq_some hscan).2
    exact hlt

end LanceBot

namespace LanceBot

/-- Across any sequence of calls, the fired cursor values are strictly
increasing (hence each threshold index fires at most once), and every fired
value exceeds the starting cursor. -/
theorem runTimed_chain (calls : List TimedCall) : ∀ s : TimedStrategy,
    List.Chain' (· < ·) ((runTimed s calls).2.reduceOption) ∧
    ∀ x ∈ (runTimed s calls).2.reduceOption, s.last_bid_time_index < x := by
  induction calls with
  | nil => intro s; simp [runTimed, List.reduceOption]
  | cons c cs ih =>
    intro s
    rw [runTimed]
    cases hb : (s.should_bid c.delays c.seconds_remaining c.current_price
        c.my_last_bid c.min_price).1 with
    | false =>
      have hs2 := timed_should_bid_false_snd s c.delays c.seconds_remaining
        c.current_price c.my_last_bid c.min_price hb
      simp only [hb, if_false, Bool.false_eq_true, hs2]
      rw [List.reduceOption_cons_of_none]
      exact ih s
    | true =>
      have hlt := timed_should_bid_true_lt s c.delays c.seconds_remaining
        c.current_price c.my_last_bid c.min_price hb
      have hmono := timed_should_bid_mono s c.delays c.seconds_remaining
        c.current_price c.my_last_bid c.min_price
      obtain ⟨ihc, ihm⟩ := ih (s.should_bid c.delays c.seconds_remaining
        c.current_price c.my_last_bid c.min_price).2
      simp only [hb, if_true]
      rw [List.reduceOption_cons_of_some]
      constructor
      · rw [List.chain'_cons']
        refine ⟨?_, ihc⟩
        intro y hy
        exact ihm y (List.mem_of_mem_head? hy)
      · intro x hx
        rcases List.mem_cons.mp hx with rfl | hx
        · exact hlt
        · exact lt_trans hlt (ihm x hx)

end LanceBot

namespace LanceBot

/-! Section: Coordinator state-invariant machinery -/

theorem cap_lt_of_any_false {a : Auction}
    (h : (a.max_bids.any fun mb => decide (mb ≤ a.bids_count)) = false) :
    ∀ mb, a.max_bids = some mb → a.bids_count < mb := by
  intro mb hmb
  rw [hmb] at h
  simp [Option.any] at h
  omega

theorem auctionInv_register (strat : Strategy) (mp : Option ℚ) (mb : Option ℕ)
    (d : Option String) :
    auctionInv { strategy := strat, min_price := mp, max_bids := mb,
                 bids_count := 0, last_bid := none, item_description := d,
                 bid_history := [] } := by
  refine ⟨?_, rfl, rfl⟩
  intro mb2 _
  exact Nat.zero_le mb2

theorem auctionInv_strategy {a : Auction} (ha : auctionInv a) (s2 : Strategy) :
    auctionInv { a with strategy := s2 } := ha

theorem auctionInv_accept {a : Auction} (ha : auctionInv a)
    (hcap : (a.max_bids.any fun mb => decide (mb ≤ a.bids_count)) = false)
    (s2 : Strategy) (v p : ℚ) :
    auctionInv { a with
                   strategy := s2,
                   last_bid := some v,
                   bids_count := a.bids_count + 1,
                   bid_history := a.bid_history ++ [⟨v, p⟩] } := by
  obtain ⟨_, h2, _⟩ := ha
  refine ⟨?_, ?_, ?_⟩
  · intro mb hmb
    dsimp only at hmb ⊢
    have := cap_lt_of_any_false hcap mb hmb
    omega
  · simp [h2]
  · simp [List.getLast?_append_cons]

theorem managerInv_empty : managerInv emptyManager := by
  intro e he
  simp [emptyManager] at he

theorem managerInv_register {m : BiddingManager} (h : managerInv m)
    (aid : String) (strat : Strategy) (mp : Option ℚ) (mb : Option ℕ)
    (d : Option String) :
    managerInv (m.register_auction aid strat mp mb d) := by
  intro e he
  unfold BiddingManager.register_auction at he
  rcases mem_setAuction he with rfl | he2
  · exact auctionInv_register strat mp mb d
  · exact h e he2

theorem managerInv_remove {m : BiddingManager} (h : managerInv m)
    (aid : String) : managerInv (m.remove_auction aid).2 := by
  unfold BiddingManager.remove_auction
  cases hl : lookupAuction m.active_auctions aid with
  | none => exact h
  | some a =>
    intro e he
    exact h e (mem_delAuction he)

theorem managerInv_process {m : BiddingManager} (h : managerInv m)
    (delays : ℕ → ℤ) (aid : String) (p : ℚ) (secs : Option ℤ) :
    ∀ r, m.process_bid delays aid p secs = Except.ok r → managerInv r.2.1 := by
  intro r hr
  unfold BiddingManager.process_bid at hr
  cases hl : lookupAuction m.active_auctions aid with
  | none =>
    rw [hl] at hr
    dsimp only at hr
    obtain rfl := Except.ok.inj hr
    exact h
  | some a =>
    rw [hl] at hr
    dsimp only at hr
    have ha : auctionInv a := h (aid, a) (lookupAuction_mem hl)
    split_ifs at hr with hcap
    · obtain rfl := Except.ok.inj hr
      exact h
    · have hcap2 : (a.max_bids.any fun mb => decide (mb ≤ a.bids_count)) = false := by
        simpa using hcap
      cases hstrat : a.strategy with
      | minimal s =>
        rw [hstrat] at hr
        dsimp only at hr
        split_ifs at hr with hsb
        · obtain rfl := Except.ok.inj hr
          exact h
        · obtain rfl := Except.ok.inj hr
          intro e he
          rcases mem_setAuction he with rfl | he2
          · exact auctionInv_accept ha hcap2 a.strategy (s.calculate_bid p) p
          · exact h e he2
      | timed s =>
        rw [hstrat] at hr
        cases secs with
        | none =>
          dsimp only at hr
          exact absurd hr (by simp)
        | some ss =>
          dsimp only at hr
          split_ifs at hr with hsb
          · obtain rfl := Except.ok.inj hr
            intro e he
            rcases mem_setAuction he with rfl | he2
            · exact auctionInv_strategy ha _
            · exact h e he2
          · obtain rfl := Except.ok.inj hr
            intro e he
            rcases mem_setAuction he with rfl | he2
            · exact auctionInv_accept ha hcap2 _ _ p
            · exact h e he2

theorem managerInv_stepCall {m : BiddingManager} (h : managerInv m)
    (c : ManagerCall) : managerInv (stepCall m c) := by
  cases c with
  | register aid strat mp mb d => exact managerInv_register h aid strat mp mb d
  | process delays aid p secs =>
    cases hr : m.process_bid delays aid p secs with
    | error e => simpa [stepCall, hr] using h
    | ok r =>
      obtain ⟨v, m2, ev⟩ := r
      have h2 := managerInv_process h delays aid p secs (v, m2, ev) hr
      simpa [stepCall, hr] using h2
  | remove aid => exact managerInv_remove h aid

theorem managerInv_runCalls (calls : List ManagerCall) :
    ∀ {m : BiddingManager}, managerInv m → managerInv (runCalls m calls) := by
  induction calls with
  | nil => intro m h; exact h
  | cons c cs ih =>
    intro m h
    exact ih (managerInv_stepCall h c)

end LanceBot

namespace LanceBot

/-! Section: Claim theorems -/

/-- C1 (counterexample): after registering `"A"`, one accepted bid brings
`bids_count` to 1; calling `register_auction` again with the same id does
not fail — it silently replaces the record with a fresh zeroed one
(`bids_count` back to 0, `bid_history` emptied), contradicting the claim
that the existing record is left unchanged. -/
theorem C1_counterexample :
    stepCall mA (ManagerCall.process (fun _ => 0) "A" 100 none) = mA1 ∧
    (lookupAuction mA1.active_auctions "A").map Auction.bids_count = some 1 ∧
    (lookupAuction mA2.active_auctions "A").map Auction.bids_count = some 0 ∧
    (lookupAuction mA2.active_auctions "A").map Auction.bid_history = some [] := by
  refine ⟨?_, ?_, ?_, ?_⟩ <;>
    norm_num [mA, mA1, mA2, auctionA1, stepCall, emptyManager,
      BiddingManager.register_auction, setAuction, BiddingManager.process_bid,
      lookupAuction, MinimalDecreaseStrategy.should_bid,
      MinimalDecreaseStrategy.calculate_bid, round2, pyRoundInt, qfloor]

/-- C1 (amended): `register_auction` with an id that is already present does
not fail with `DuplicateAuction` — there is no duplicate check in the code;
it silently replaces whatever record was there with a fresh zeroed record
(zero `bids_count`, no `last_bid`, empty `bid_history`). -/
theorem C1_register_replaces (m : BiddingManager) (aid : String)
    (strat : Strategy) (mp : Option ℚ) (mb : Option ℕ) (d : Option String) :
    lookupAuction (m.register_auction aid strat mp mb d).active_auctions aid =
      some { strategy := strat, min_price := mp, max_bids := mb,
             bids_count := 0, last_bid := none, item_description := d,
             bid_history := [] } := by
  unfold BiddingManager.register_auction
  rw [lookupAuction_setAuction]
  simp

/-- C2 (counterexample): in Scenario C (TimedPolicy [60,30,10,3], floor 90,
constant price 100, seconds [120,60,40,30,15,10,5,3,1]) the run accepts a
bid only at the 60-second call; in particular the 30-second call (index 3)
returns no bid, contradicting the claimed four accepted bids. -/
theorem C2_counterexample :
    scenarioCRun.1 =
      [none, some (9999/100), none, none, none, none, none, none, none] ∧
    scenarioCRun.1.get? 3 = some none := by
  have h : scenarioCRun.1 =
      [none, some (9999/100), none, none, none, none, none, none, none] := by
    norm_num [scenarioCRun, scenarioCManager, emptyManager,
      BiddingManager.register_auction, setAuction, processSeq,
      BiddingManager.process_bid, lookupAuction,
      TimedStrategy.should_bid, TimedStrategy.calculate_bid, scanFire,
      adjustedBidTime, MinimalDecreaseStrategy.should_bid,
      MinimalDecreaseStrategy.calculate_bid, round2, pyRoundInt, qfloor]
  refine ⟨h, ?_⟩
  rw [h]
  rfl

/-- C2 (amended): the Scenario C run accepts exactly one bid, 99.99 at the
60-second call; every later call is rejected by the already-leading
baseline rule (`last_bid` 99.99 ≤ constant price 100.0), so no threshold
index fires twice and the auction ends with `bids_count` 1. -/
theorem C2_single_bid :
    scenarioCRun.1 =
      [none, some (9999/100), none, none, none, none, none, none, none] ∧
    (lookupAuction scenarioCRun.2.active_auctions "C").map Auction.bids_count =
      some 1 ∧
    (lookupAuction scenarioCRun.2.active_auctions "C").map Auction.last_bid =
      some (some (9999/100)) := by
  refine ⟨?_, ?_, ?_⟩ <;>
    norm_num [scenarioCRun, scenarioCManager, emptyManager,
      BiddingManager.register_auction, setAuction, processSeq,
      BiddingManager.process_bid, lookupAuction,
      TimedStrategy.should_bid, TimedStrategy.calculate_bid, scanFire,
      adjustedBidTime, MinimalDecreaseStrategy.should_bid,
      MinimalDecreaseStrategy.calculate_bid, round2, pyRoundInt, qfloor]

/-- C3: `calculate_bid` returns `round2 (p - d)` where `d` is the percentage
decrement exactly when `min_decrease_percent > 0` and that decrement strictly
exceeds `min_decrease_value`, and `min_decrease_value` otherwise; with
configuration (0.01, 0.1) it yields 99.9 at price 100.0 (percentage wins)
and 9.99 at price 10.0 (fixed wins, the tie is not strict). -/
theorem C3_calculate_bid :
    (∀ v pct p : ℚ,
      MinimalDecreaseStrategy.calculate_bid ⟨v, pct⟩ p =
        round2 (p - (if 0 < pct ∧ v < p * pct / 100 then p * pct / 100 else v))) ∧
    MinimalDecreaseStrategy.calculate_bid ⟨1/100, 1/10⟩ 100 = 999/10 ∧
    MinimalDecreaseStrategy.calculate_bid ⟨1/100, 1/10⟩ 10 = 999/100 := by
  refine ⟨?_, ?_, ?_⟩
  · intro v pct p
    unfold MinimalDecreaseStrategy.calculate_bid
    dsimp only
    rw [mul_div_assoc]
    have hiff : (p * (pct / 100) > v ∧ pct > 0) ↔
        (0 < pct ∧ v < p * (pct / 100)) :=
      ⟨fun h => ⟨h.2, h.1⟩, fun h => ⟨h.2, h.1⟩⟩
    by_cases hc : 0 < pct ∧ v < p * (pct / 100)
    · rw [if_pos (hiff.mpr hc), if_pos hc]
    · rw [if_neg (fun hh => hc (hiff.mp hh)), if_neg hc]
  · norm_num [MinimalDecreaseStrategy.calculate_bid, round2, pyRoundInt, qfloor]
  · norm_num [MinimalDecreaseStrategy.calculate_bid, round2, pyRoundInt, qfloor]

/-- C4: after any finite sequence of coordinator calls starting from the
empty manager, every registered auction record satisfies the data-model
invariant: `bids_count ≤ max_bids` whenever capped, `bids_count` equals the
history length, and `last_bid` mirrors the newest history entry (`none` for
an empty history). -/
theorem C4_state_invariants (calls : List ManagerCall) (aid : String)
    (a : Auction)
    (h : lookupAuction (runCalls emptyManager calls).active_auctions aid = some a) :
    auctionInv a :=
  managerInv_runCalls calls managerInv_empty (aid, a) (lookupAuction_mem h)

/-- Witness for C4: a register followed by an accepted bid reaches the
record `auctionA1`, which indeed satisfies the invariant. -/
theorem C4_witness : auctionInv auctionA1 :=
  C4_state_invariants
    [ManagerCall.register "A" (Strategy.minimal ⟨1/100, 0⟩) (some 90) none none,
     ManagerCall.process (fun _ => 0) "A" 100 none]
    "A" auctionA1
    (by norm_num [runCalls, stepCall, emptyManager,
      BiddingManager.register_auction, setAuction, BiddingManager.process_bid,
      lookupAuction, MinimalDecreaseStrategy.should_bid,
      MinimalDecreaseStrategy.calculate_bid, round2, pyRoundInt, qfloor,
      auctionA1])

end LanceBot

namespace LanceBot

/-- C5: for both concrete policies, `should_bid` returns false whenever the
bot already leads (`my_last_bid ≤ current_price`) or the price is at or
below the floor; consequently any `process_bid` call on an auction whose
`last_bid` is already `≤ current_price` produces no bid and leaves the
manager unchanged, so a second identical call behaves identically (for a
TimedPolicy auction called without `seconds_remaining` the call raises
instead of returning, still without producing a bid or changing state). -/
theorem C5_baseline_idempotence :
    (∀ (s : MinimalDecreaseStrategy) (p b : ℚ) (mp : Option ℚ), b ≤ p →
      s.should_bid p (some b) mp = false) ∧
    (∀ (s : MinimalDecreaseStrategy) (p : ℚ) (lb : Option ℚ) (fp : ℚ), p ≤ fp →
      s.should_bid p lb (some fp) = false) ∧
    (∀ (s : TimedStrategy) (delays : ℕ → ℤ) (secs : ℤ) (p b : ℚ)
        (mp : Option ℚ), b ≤ p →
      s.should_bid delays secs p (some b) mp = (false, s)) ∧
    (∀ (s : TimedStrategy) (delays : ℕ → ℤ) (secs : ℤ) (p : ℚ)
        (lb : Option ℚ) (fp : ℚ), p ≤ fp →
      s.should_bid delays secs p lb (some fp) = (false, s)) ∧
    (∀ (m : BiddingManager) (delays : ℕ → ℤ) (aid : String) (p : ℚ)
        (secs : Option ℤ) (a : Auction) (b : ℚ),
      lookupAuction m.active_auctions aid = some a → a.last_bid = some b →
      b ≤ p →
      ∀ r, m.process_bid delays aid p secs = Except.ok r →
        r.1 = none ∧ r.2.1 = m ∧
        r.2.1.process_bid delays aid p secs = m.process_bid delays aid p secs) := by
  refine ⟨?_, ?_, ?_, ?_, ?_⟩
  · intro s p b mp h
    exact should_bid_false_of_led s p b mp h
  · intro s p lb fp h
    exact should_bid_false_of_floor s p lb fp h
  · intro s delays secs p b mp h
    exact timed_should_bid_of_baseline_false s delays secs p (some b) mp
      (should_bid_false_of_led _ p b mp h)
  · intro s delays secs p lb fp h
    exact timed_should_bid_of_baseline_false s delays secs p lb (some fp)
      (should_bid_false_of_floor _ p lb fp h)
  · intro m delays aid p secs a b hl hlb hble r hr
    have hmain : r.1 = none ∧ r.2.1 = m := by
      unfold BiddingManager.process_bid at hr
      rw [hl] at hr
      dsimp only at hr
      split_ifs at hr with hcap
      · obtain rfl := Except.ok.inj hr
        exact ⟨rfl, rfl⟩
      · cases hstrat : a.strategy with
        | minimal s =>
          rw [hstrat] at hr
          dsimp only at hr
          have hsb : s.should_bid p a.last_bid a.min_price = false := by
            rw [hlb]
            exact should_bid_false_of_led s p b a.min_price hble
          rw [hsb, if_pos rfl] at hr
          obtain rfl := Except.ok.inj hr
          exact ⟨rfl, rfl⟩
        | timed s =>
          rw [hstrat] at hr
          cases secs with
          | none => exact absurd hr (by simp)
          | some ss =>
            have hsb : s.should_bid delays ss p a.last_bid a.min_price =
                (false, s) := by
              rw [hlb]
              exact timed_should_bid_of_baseline_false s delays ss p (some b)
                a.min_price (should_bid_false_of_led _ p b a.min_price hble)
            dsimp only at hr
            rw [hsb] at hr
            dsimp only at hr
            rw [if_pos rfl] at hr
            obtain rfl := Except.ok.inj hr
            refine ⟨rfl, ?_⟩
            dsimp only
            have heq : { a with strategy := Strategy.timed s } = a := by
              rw [← hstrat]
            rw [heq, setAuction_self hl]
    refine ⟨hmain.1, hmain.2, ?_⟩
    rw [hmain.2]

end LanceBot

namespace LanceBot

/-- Witness for C5: on the post-bid state `mA1` (last bid 99.99, price 100)
a `process_bid` call yields no bid, leaves the manager unchanged, and a
second identical call evaluates to the very same result. -/
theorem C5_witness :
    ((none : Option ℚ), mA1, ([] : List LogLevel)).1 = none ∧
    ((none : Option ℚ), mA1, ([] : List LogLevel)).2.1 = mA1 ∧
    ((none : Option ℚ), mA1, ([] : List LogLevel)).2.1.process_bid
        (fun _ => 0) "A" 100 none =
      mA1.process_bid (fun _ => 0) "A" 100 none := by
  exact C5_baseline_idempotence.2.2.2.2 mA1 (fun _ => 0) "A" 100 none
    auctionA1 (9999/100)
    (by norm_num [mA1, auctionA1, lookupAuction]) rfl (by norm_num)
    ((none : Option ℚ), mA1, ([] : List LogLevel))
    (by norm_num [mA1, auctionA1, BiddingManager.process_bid, lookupAuction,
      MinimalDecreaseStrategy.should_bid])

/-- With the parameters the coordinator passes (`min_decrease_value=0.01`,
`min_decrease_percent=0.0`, `aggressive_final_bid=False`), a TimedStrategy
bid is always strictly below the current price. -/
theorem timed_default_calculate_lt (s2 : TimedStrategy) (p : ℚ) :
    s2.calculate_bid p (1/100) 0 false < p := by
  unfold TimedStrategy.calculate_bid
  rw [if_neg (by simp)]
  exact calculate_bid_lt ⟨1/100, 0⟩ p (le_refl _)

/-- C6 (amended): for every accepted bid, the appended history entry records
the bid value together with the decision price, and the decision price is
strictly above the floor when one is set (the bid itself need not be); the
bid value is strictly below the decision price for every TimedPolicy
auction, and for MinimalDecreasePolicy auctions whenever
`min_decrease_value ≥ 0.01` (so that rounding cannot erase the decrement). -/
theorem C6_bid_bounds (m : BiddingManager) (delays : ℕ → ℤ) (aid : String)
    (p : ℚ) (secs : Option ℤ) (v : ℚ) (m2 : BiddingManager)
    (ev : List LogLevel) (a : Auction)
    (hl : lookupAuction m.active_auctions aid = some a)
    (hr : m.process_bid delays aid p secs = Except.ok (some v, m2, ev)) :
    (∀ fp, a.min_price = some fp → fp < p) ∧
    (lookupAuction m2.active_auctions aid).map
      (fun a2 => a2.bid_history.getLast?) = some (some ⟨v, p⟩) ∧
    (∀ s, a.strategy = Strategy.timed s → v < p) ∧
    (∀ s, a.strategy = Strategy.minimal s →
      1/100 ≤ s.min_decrease_value → v < p) := by
  unfold BiddingManager.process_bid at hr
  rw [hl] at hr
  dsimp only at hr
  split_ifs at hr with hcap
  · exact absurd (Except.ok.inj hr) (by simp)
  · cases hstrat : a.strategy with
    | minimal s =>
      rw [hstrat] at hr
      dsimp only at hr
      split_ifs at hr with hsb
      · exact absurd (Except.ok.inj hr) (by simp)
      · have hsb2 : s.should_bid p a.last_bid a.min_price = true := by
          simpa using hsb
        have hinj := Except.ok.inj hr
        have hv : s.calculate_bid p = v := by
          simpa using congrArg (fun x => x.1) hinj
        have hm : (⟨setAuction m.active_auctions aid
            { a with
              strategy := Strategy.minimal s,
              bids_count := a.bids_count + 1,
              last_bid := some (s.calculate_bid p),
              bid_history := a.bid_history ++
                [⟨s.calculate_bid p, p⟩] }⟩ : BiddingManager) = m2 := by
          simpa using congrArg (fun x => x.2.1) hinj
        refine ⟨?_, ?_, ?_, ?_⟩
        · intro fp hfp
          exact ((should_bid_eq_true_iff s p a.last_bid a.min_price).mp
            hsb2).2 fp hfp
        · rw [← hm]
          dsimp only
          rw [lookupAuction_setAuction]
          simp [hv]
        · intro s2 hs2
          exact absurd hs2 (by simp)
        · intro s2 hs2 hge
          have hss : s = s2 := by injection hs2
          subst hss
          rw [← hv]
          exact calculate_bid_lt s p hge
    | timed s =>
      rw [hstrat] at hr
      cases secs with
      | none => exact absurd hr (by simp)
      | some ss =>
        dsimp only at hr
        split_ifs at hr with hsb
        · exact absurd (Except.ok.inj hr) (by simp)
        · have hsb2 : (s.should_bid delays ss p a.last_bid a.min_price).1
              = true := by simpa using hsb
          have hinj := Except.ok.inj hr
          have hv : (s.should_bid delays ss p a.last_bid
              a.min_price).2.calculate_bid p (1/100) 0 false = v := by
            simpa using congrArg (fun x => x.1) hinj
          have hm : (⟨setAuction m.active_auctions aid
              { a with
                strategy := Strategy.timed
                  (s.should_bid delays ss p a.last_bid a.min_price).2,
                bids_count := a.bids_count + 1,
                last_bid := some ((s.should_bid delays ss p a.last_bid
                  a.min_price).2.calculate_bid p (1/100) 0 false),
                bid_history := a.bid_history ++
                  [⟨(s.should_bid delays ss p a.last_bid
                    a.min_price).2.calculate_bid p (1/100) 0 false, p⟩] }⟩ :
              BiddingManager) = m2 := by
            simpa using congrArg (fun x => x.2.1) hinj
        
          have hbase : MinimalDecreaseStrategy.should_bid ⟨1/100, 0⟩ p
              a.last_bid a.min_price = true := by
            rcases timed_should_bid_cases s delays ss p a.last_bid a.min_price
              with hc | ⟨i, _, hb, _⟩
            · rw [hc] at hsb2; simp at hsb2
            · exact hb
          refine ⟨?_, ?_, ?_, ?_⟩
          · intro fp hfp
            exact ((should_bid_eq_true_iff ⟨1/100, 0⟩ p a.last_bid
              a.min_price).mp hbase).2 fp hfp
          · rw [← hm]
            dsimp only
            rw [lookupAuction_setAuction]
            rw [← hv]
            simp [List.getLast?_append_cons]
          · intro s2 _
            rw [← hv]
            exact timed_default_calculate_lt _ p
          · intro s2 hs2
            exact absurd hs2 (by simp)

end LanceBot

namespace LanceBot

/-- C6 (counterexample): with floor 99.99 and the default one-cent
decrement, the bid accepted at price 100.0 is exactly 99.99 — it lands on
the floor, so the claimed strict inequality `bid_value > floor_price`
fails on an accepted, recorded bid. -/
theorem C6_counterexample :
    (lookupAuction mF1.active_auctions "F").map Auction.bid_history =
      some [⟨9999/100, 100⟩] ∧
    (lookupAuction mF.active_auctions "F").map Auction.min_price =
      some (some (9999/100)) ∧
    ¬((9999 : ℚ)/100 > 9999/100) := by
  refine ⟨?_, ?_, by norm_num⟩ <;>
    norm_num [mF, mF1, stepCall, emptyManager,
      BiddingManager.register_auction, setAuction, BiddingManager.process_bid,
      lookupAuction, MinimalDecreaseStrategy.should_bid,
      MinimalDecreaseStrategy.calculate_bid, round2, pyRoundInt, qfloor]

/-- Witness for C6: an accepted bid on auction `"A"` (floor 90, price 100)
has its floor strictly below the decision price and its value strictly
below the decision price. -/
theorem C6_witness : (90 : ℚ) < 100 ∧ (9999 : ℚ)/100 < 100 := by
  have h := C6_bid_bounds mA (fun _ => 0) "A" 100 none (9999/100) mA1
    [LogLevel.info] auctionA0
    (by norm_num [mA, emptyManager, BiddingManager.register_auction,
      setAuction, lookupAuction, auctionA0])
    (by norm_num [mA, mA1, auctionA0, auctionA1, emptyManager,
      BiddingManager.register_auction, setAuction, BiddingManager.process_bid,
      lookupAuction, MinimalDecreaseStrategy.should_bid,
      MinimalDecreaseStrategy.calculate_bid, round2, pyRoundInt, qfloor])
  exact ⟨h.1 90 rfl, h.2.2.2 ⟨1/100, 0⟩ rfl (by norm_num)⟩

/-- C7: a TimedPolicy `should_bid` call never decreases the trigger cursor;
when it declines the strategy state is unchanged, and when it fires it
returns the FIRST index `i` beyond the cursor (in declared order) whose
(possibly jittered) threshold covers `seconds_remaining`, setting the
cursor to `i`; across any call sequence the fired indices are strictly
increasing, so each threshold index fires at most once. -/
theorem C7_first_match :
    (∀ (s : TimedStrategy) (delays : ℕ → ℤ) (secs : ℤ) (p : ℚ)
        (lb mp : Option ℚ),
      s.last_bid_time_index ≤
        (s.should_bid delays secs p lb mp).2.last_bid_time_index ∧
      ((s.should_bid delays secs p lb mp).1 = false →
        (s.should_bid delays secs p lb mp).2 = s) ∧
      ((s.should_bid delays secs p lb mp).1 = true →
        ∃ i t, s.bid_times.get? i = some t ∧
          s.last_bid_time_index < (i : ℤ) ∧
          secs ≤ adjustedBidTime s delays i t ∧
          (s.should_bid delays secs p lb mp).2.last_bid_time_index = (i : ℤ) ∧
          ∀ j tj, j < i → s.bid_times.get? j = some tj →
            ¬(s.last_bid_time_index < (j : ℤ) ∧
              secs ≤ adjustedBidTime s delays j tj))) ∧
    (∀ (s : TimedStrategy) (calls : List TimedCall),
      List.Chain' (· < ·) ((runTimed s calls).2.reduceOption)) := by
  constructor
  · intro s delays secs p lb mp
    refine ⟨timed_should_bid_mono s delays secs p lb mp,
      timed_should_bid_false_snd s delays secs p lb mp, ?_⟩
    intro htrue
    rcases timed_should_bid_cases s delays secs p lb mp with
      hc | ⟨i, hscan, _, hc⟩
    · rw [hc] at htrue
      simp at htrue
    · obtain ⟨_, t, hget, hcond1, hcond2, hmin⟩ := scanFire_eq_some hscan
      refine ⟨i, t, by simpa using hget, hcond2, hcond1, by rw [hc], ?_⟩
      intro j tj hji hgetj hcon
      exact hmin j tj (Nat.zero_le j) hji (by simpa using hgetj)
        ⟨hcon.2, hcon.1⟩
  · intro s calls
    exact (runTimed_chain calls s).1

/-- Witness for C7: the fresh Scenario C strategy fired at 30 seconds
remaining picks threshold index 0 (the first unconsumed index in declared
order). -/
theorem C7_witness :
    (timedS0.should_bid (fun _ => 0) 30 100 none none).1 = true ∧
    (∃ i t, timedS0.bid_times.get? i = some t ∧
      timedS0.last_bid_time_index < (i : ℤ) ∧
      (30 : ℤ) ≤ adjustedBidTime timedS0 (fun _ => 0) i t ∧
      (timedS0.should_bid (fun _ => 0) 30 100 none
        none).2.last_bid_time_index = (i : ℤ) ∧
      ∀ j tj, j < i → timedS0.bid_times.get? j = some tj →
        ¬(timedS0.last_bid_time_index < (j : ℤ) ∧
          (30 : ℤ) ≤ adjustedBidTime timedS0 (fun _ => 0) j tj)) := by
  have ht : (timedS0.should_bid (fun _ => 0) 30 100 none none).1 = true := by
    norm_num [timedS0, TimedStrategy.should_bid,
      MinimalDecreaseStrategy.should_bid, scanFire, adjustedBidTime]
  exact ⟨ht, (C7_first_match.1 timedS0 (fun _ => 0) 30 100 none none).2.2 ht⟩

/-- C8: once `bids_count` has reached a set `max_bids`, `process_bid`
returns "no bid" with only the cap-reached info event and the manager
unchanged — the strategy is never consulted (in the embedding the result
is produced before any strategy call) and no counter, history or cursor
changes. -/
theorem C8_cap_reached (m : BiddingManager) (delays : ℕ → ℤ) (aid : String)
    (p : ℚ) (secs : Option ℤ) (a : Auction) (mb : ℕ)
    (hl : lookupAuction m.active_auctions aid = some a)
    (hmb : a.max_bids = some mb) (hc : mb ≤ a.bids_count) :
    m.process_bid delays aid p secs = Except.ok (none, m, [LogLevel.info]) := by
  unfold BiddingManager.process_bid
  rw [hl]
  dsimp only
  rw [if_pos]
  rw [hmb]
  simpa using hc

/-- Witness for C8 (Scenario D): an auction capped at one bid with one bid
taken returns "no bid" at any price, unchanged. -/
theorem C8_witness :
    mD1.process_bid (fun _ => 0) "D" 50 none =
      Except.ok (none, mD1, [LogLevel.info]) :=
  C8_cap_reached mD1 (fun _ => 0) "D" 50 none auctionD1 1
    (by norm_num [mD1, auctionD1, lookupAuction]) rfl (le_refl 1)

/-- C9: `process_bid` on an id that is not in the registry returns "no bid"
(it never raises), emits a warning event, and returns the manager
unchanged — in particular no implicit record is created. -/
theorem C9_unknown_id (m : BiddingManager) (delays : ℕ → ℤ) (aid : String)
    (p : ℚ) (secs : Option ℤ)
    (h : lookupAuction m.active_auctions aid = none) :
    m.process_bid delays aid p secs =
      Except.ok (none, m, [LogLevel.warning]) := by
  unfold BiddingManager.process_bid
  rw [h]

/-- Witness for C9: processing an unknown id on the empty manager. -/
theorem C9_witness :
    emptyManager.process_bid (fun _ => 0) "X" 100 none =
      Except.ok (none, emptyManager, [LogLevel.warning]) :=
  C9_unknown_id emptyManager (fun _ => 0) "X" 100 none rfl

/-- C10: for an auction bound to a TimedPolicy and not yet capped, calling
`process_bid` with `seconds_remaining` omitted raises `TypeError`: the
coordinator forwards `seconds_remaining` only when it is not `None`
(`src/bidding.py:337-339`) while `TimedStrategy.should_bid` requires it as
a mandatory argument, so the call escapes as an exception instead of
returning "no bid". -/
theorem C10_missing_seconds (m : BiddingManager) (delays : ℕ → ℤ)
    (aid : String) (p : ℚ) (a : Auction) (s : TimedStrategy)
    (hl : lookupAuction m.active_auctions aid = some a)
    (hs : a.strategy = Strategy.timed s)
    (hcap : (a.max_bids.any fun mb => decide (mb ≤ a.bids_count)) = false) :
    m.process_bid delays aid p none = Except.error PyError.typeError := by
  unfold BiddingManager.process_bid
  rw [hl]
  dsimp only
  rw [if_neg (by simp [hcap])]
  rw [hs]

/-- Witness for C10: the registered TimedPolicy auction `"T"` raises on a
`process_bid` call without `seconds_remaining`. -/
theorem C10_witness :
    mT.process_bid (fun _ => 0) "T" 100 none =
      Except.error PyError.typeError :=
  C10_missing_seconds mT (fun _ => 0) "T" 100 auctionT timedS0
    (by norm_num [mT, auctionT, lookupAuction]) rfl rfl

end LanceBot
